import Mathlib

/-!
Verification of the simply-fuse inode table, attribute model, example
memory filesystem and dispatch loop, as a shallow embedding of the Rust
source (src/src/lib.rs, src/src/basic.rs, src/src/attrs.rs,
src/src/error.rs, src/src/runner.rs, src/examples/memfs.rs).

Modelling conventions:
* `u64` / `u32` / `usize` values are `Nat`; the one place the source does
  arithmetic on a machine integer (`Nat::next_inode`, a `u64` increment)
  is modelled with an explicit `% 2^64`.
* `Duration` values are opaque to every operation studied here and are
  modelled as `Nat` (a nanosecond count).
* `OsString` names are `String` (raw, case-sensitive, no normalization —
  exactly how the source treats them).
* `HashMap` is modelled as an association list with first-match lookup and
  replace-or-append insertion; enumeration order is the list order, which
  is stable between reads of an unmodified map, the only property the
  source relies on (readdir pagination).
* Fallible Rust code returns `Option`/`Except`; a Rust panic
  (`todo!`, `unwrap`, out-of-bounds slice) is modelled by `Option.none`
  at the outermost layer of the affected operation's result.
-/

/-- First-match lookup in an association list; model of `HashMap::get`. -/
def assocFind {K V : Type} [DecidableEq K] (l : List (K × V)) (k : K) : Option V :=
  match l with
  | [] => none
  | (k', v) :: rest => if k' = k then some v else assocFind rest k

/-- Replace-or-append insertion; model of `HashMap::insert` (value part). -/
def assocInsert {K V : Type} [DecidableEq K] (l : List (K × V)) (k : K) (v : V) :
    List (K × V) :=
  match l with
  | [] => [(k, v)]
  | (k', v') :: rest =>
      if k' = k then (k, v) :: rest else (k', v') :: assocInsert rest k v

theorem assocFind_insert_self {K V : Type} [DecidableEq K]
    (l : List (K × V)) (k : K) (v : V) : assocFind (assocInsert l k v) k = some v := by
  induction l with
  | nil => simp [assocInsert, assocFind]
  | cons hd tl ih =>
      obtain ⟨k', v'⟩ := hd
      by_cases h : k' = k <;> simp [assocInsert, assocFind, h, ih]

theorem assocFind_insert_ne {K V : Type} [DecidableEq K]
    (l : List (K × V)) (k k' : K) (v : V) (h : k' ≠ k) :
    assocFind (assocInsert l k v) k' = assocFind l k' := by
  induction l with
  | nil => simp [assocInsert, assocFind, Ne.symm h]
  | cons hd tl ih =>
      obtain ⟨k0, v0⟩ := hd
      by_cases h0 : k0 = k
      · subst h0
        simp [assocInsert, assocFind, Ne.symm h]
      · simp [assocInsert, assocFind, h0, ih]

theorem assocFind_mem {K V : Type} [DecidableEq K]
    {l : List (K × V)} {k : K} {v : V} (h : assocFind l k = some v) : (k, v) ∈ l := by
  induction l with
  | nil => simp [assocFind] at h
  | cons hd tl ih =>
      obtain ⟨k', v'⟩ := hd
      by_cases h0 : k' = k
      · subst h0
        simp [assocFind] at h
        simp [h]
      · simp [assocFind, h0] at h
        exact List.mem_cons_of_mem _ (ih h)

/-- The reserved root inode, `Nat(1)` (src/src/basic.rs). -/
def ROOT_INODE : Nat := 1

/-- Model of `Nat::next_inode`: a `u64` increment, so taken mod `2^64`. -/
def INode.next_inode (i : Nat) : Nat := (i + 1) % 2 ^ 64

/-- Full POSIX-like metadata, `FileAttributes` (src/src/attrs.rs). -/
structure FileAttributes where
  mode : Nat
  size : Nat
  nlink : Nat
  uid : Nat
  gid : Nat
  rdev : Nat
  blksize : Nat
  blocks : Nat
  atime : Nat
  mtime : Nat
  ctime : Nat
  ttl : Nat
deriving DecidableEq, Repr

/-- The builder defaults of `FileAttributes` (`mode` is mandatory, `size`
defaults to 4096, `ttl` to one second, everything else to zero); builder
calls that override a field are modelled by record updates on this value. -/
def FileAttributes.mkMode (mode : Nat) : FileAttributes :=
  { mode := mode, size := 4096, nlink := 0, uid := 0, gid := 0, rdev := 0,
    blksize := 0, blocks := 0, atime := 0, mtime := 0, ctime := 0,
    ttl := 1000000000 }

/-- Sparse update request, `SetFileAttributes` (src/src/attrs.rs): the
source declares optional variants of exactly these seven fields. -/
structure SetFileAttributes where
  mode : Option Nat
  size : Option Nat
  uid : Option Nat
  gid : Option Nat
  atime : Option Nat
  mtime : Option Nat
  ctime : Option Nat
deriving DecidableEq, Repr

/-- The all-`None` update. -/
def SetFileAttributes.none_ : SetFileAttributes :=
  ⟨none, none, none, none, none, none, none⟩

/-- Model of `FileAttributes::apply_attrs` (src/src/attrs.rs lines 127-157
and the equivalent src/src/lib.rs lines 173-190): for each of the seven
fields of `SetFileAttributes`, copy it over the receiver when it is `Some`.
The in-place mutation of the Rust method is modelled functionally; the
lib.rs variant additionally returns the updated struct, which is this
function's result. -/
def FileAttributes.apply_attrs (a : FileAttributes) (attrs : SetFileAttributes) :
    FileAttributes :=
  let a := match attrs.mode with | some m => { a with mode := m } | none => a
  let a := match attrs.size with | some s => { a with size := s } | none => a
  let a := match attrs.uid with | some u => { a with uid := u } | none => a
  let a := match attrs.gid with | some g => { a with gid := g } | none => a
  let a := match attrs.atime with | some x => { a with atime := x } | none => a
  let a := match attrs.mtime with | some x => { a with mtime := x } | none => a
  let a := match attrs.ctime with | some x => { a with ctime := x } | none => a
  a

/-- File type tag (src/src/lib.rs `FileType`); only the two variants the
inode table can produce are exercised by the claims, but all eight exist. -/
inductive FileType where
  | FIFO | Unknown | Regular | Directory | Socket | Char | Block | Link
deriving DecidableEq, Repr

/-- A directory: a name-to-inode map plus its own attributes
(src/src/basic.rs `Directory`). Children modelled as an association list;
enumeration order is the list order. -/
structure Directory where
  children : List (String × Nat)
  attrs : FileAttributes
deriving DecidableEq, Repr

/-- Model of `size_of::<Directory>()` used by `Directory::default` for the
initial `size` attribute. The exact value is target-dependent (it is a Rust
memory-layout constant); no claim depends on it, so the x86-64 value of the
source's layout is fixed here once and for all. -/
def directory_size_of : Nat := 160

/-- The directory file-type bit `libc::S_IFDIR` (octal 0040000). -/
def S_IFDIR : Nat := 16384

/-- The regular-file bit `libc::S_IFREG` (octal 0100000). -/
def S_IFREG : Nat := 32768

/-- Model of `Directory::default()`: empty children, attributes built with
`mode = S_IFDIR` and `size = size_of::<Directory>()`. -/
def Directory.default_ : Directory :=
  { children := [],
    attrs := { FileAttributes.mkMode S_IFDIR with size := directory_size_of } }

/-- Model of `Directory::apply_attrs` (src/src/basic.rs lines 24-27). -/
def Directory.apply_attrs (d : Directory) (attrs : SetFileAttributes) : Directory :=
  { d with attrs := d.attrs.apply_attrs attrs }

/-- The tagged union `INodeKind<F>` (src/src/basic.rs). -/
inductive INodeKind (F : Type) where
  | directory (d : Directory)
  | file (f : F)
deriving DecidableEq, Repr

/-- One live namespace node, `INodeEntry<F>` (src/src/basic.rs):
an optional parent back-reference plus the kind. -/
structure INodeEntry (F : Type) where
  parent : Option Nat
  kind : INodeKind F
deriving DecidableEq, Repr

/-- Model of `INodeEntry::as_dir`. -/
def INodeEntry.as_dir {F : Type} (e : INodeEntry F) : Option Directory :=
  match e.kind with
  | .directory d => some d
  | .file _ => none

/-- Model of `INodeEntry::as_file`. -/
def INodeEntry.as_file {F : Type} (e : INodeEntry F) : Option F :=
  match e.kind with
  | .file f => some f
  | .directory _ => none

/-- Model of `INodeEntry::file_type`. -/
def INodeEntry.file_type {F : Type} (e : INodeEntry F) : FileType :=
  match e.kind with
  | .directory _ => FileType.Directory
  | .file _ => FileType.Regular

/-- The children of an entry, or `[]` for a file; convenience for stating
invariants (the source's `INodeEntry::children` returns an `Option`). -/
def INodeEntry.childrenL {F : Type} (e : INodeEntry F) : List (String × Nat) :=
  match e.kind with
  | .directory d => d.children
  | .file _ => []

/-- A value that can be pushed into the table through the public API
(`IntoINodeEntry`): either a `Directory` — whose `children` field is
private, so any directory a caller can build has empty children — or a
file payload `F`. -/
inductive Payload (F : Type) where
  | dir (d : Directory)
  | file (f : F)
deriving DecidableEq, Repr

/-- Model of `IntoINodeEntry::with_parent` for the two public payloads. -/
def Payload.with_parent {F : Type} (p : Payload F) (parent : Nat) : INodeEntry F :=
  match p with
  | .dir d => ⟨some parent, .directory d⟩
  | .file f => ⟨some parent, .file f⟩

/-- The inode table (src/src/basic.rs `INodeTable<F>`): the full
inode-to-entry map plus the allocation counter. -/
structure INodeTable (F : Type) where
  map : List (Nat × INodeEntry F)
  cur_ino : Nat
deriving DecidableEq, Repr

/-- Model of `INodeTable::default()`: a pre-inserted root directory at
`ROOT_INODE`, counter starting just above the root. -/
def INodeTable.default_ {F : Type} : INodeTable F :=
  { map := [(ROOT_INODE, ⟨none, .directory Directory.default_⟩)],
    cur_ino := INode.next_inode ROOT_INODE }

/-- Model of `INodeTable::get`. -/
def INodeTable.get {F : Type} (t : INodeTable F) (ino : Nat) : Option (INodeEntry F) :=
  assocFind t.map ino

/-- Model of `INodeTable::get_mut`; in this pure embedding a mutable lookup
returns the same entry as `get`. -/
def INodeTable.get_mut {F : Type} (t : INodeTable F) (ino : Nat) :
    Option (INodeEntry F) :=
  assocFind t.map ino

/-- Model of `INodeTable::next_open_inode`: returns the current counter and
advances it (a `u64` increment). -/
def INodeTable.next_open_inode {F : Type} (t : INodeTable F) : Nat × INodeTable F :=
  (t.cur_ino, { t with cur_ino := INode.next_inode t.cur_ino })

/-- Model of `INodeTable::push_entry` (src/src/basic.rs lines 188-201).
The counter is advanced before the parent is checked, so a failing push
still consumes an inode number.  On success the name is inserted into the
parent's children (replacing an existing binding of the same name, as
`HashMap::insert` does) and the new entry is stored with `parent` recorded
as its parent. -/
def INodeTable.push_entry {F : Type} (t : INodeTable F) (parent : Nat)
    (name : String) (entry : Payload F) : INodeTable F × Option Nat :=
  let step := t.next_open_inode
  let ino := step.1
  let t1 := step.2
  match assocFind t1.map parent with
  | none => (t1, none)
  | some pe =>
      match pe.kind with
      | .file _ => (t1, none)
      | .directory d =>
          let pe' : INodeEntry F :=
            ⟨pe.parent, .directory ⟨assocInsert d.children name ino, d.attrs⟩⟩
          let m1 := assocInsert t1.map parent pe'
          let m2 := assocInsert m1 ino (entry.with_parent parent)
          ({ t1 with map := m2 }, some ino)

/-- One component of a Rust `Path`, as produced by `Path::components`:
the leading `RootDir` (printed "/") or a normal component. `Path` parsing
guarantees a normal component never equals "/". -/
inductive PathComp where
  | rootDir
  | normal (s : String)
deriving DecidableEq, Repr

/-- One step of the walking loop of `INodeTable::lookup` (the body of the
source's catch-all match arm): the current entry must be a directory, the
component must name one of its children, and that child inode must resolve
in the table. -/
def INodeTable.step {F : Type} (t : INodeTable F) (e : INodeEntry F) (s : String) :
    Option (Nat × INodeEntry F) :=
  (e.as_dir).bind fun d =>
    (assocFind d.children s).bind fun ino2 =>
      (t.get ino2).map fun e2 => (ino2, e2)

/-- The walking loop of `INodeTable::lookup` (src/src/basic.rs lines
224-245), carrying the current inode and entry. A "/" component is skipped
when the walk currently stands at the root; otherwise — exactly as in the
source's catch-all match arm — it is looked up as a child name. -/
def INodeTable.lookupAux {F : Type} (t : INodeTable F) :
    List PathComp → Nat → INodeEntry F → Option (Nat × INodeEntry F)
  | [], ino, e => some (ino, e)
  | PathComp.rootDir :: cs, ino, e =>
      if ino = ROOT_INODE then t.lookupAux cs ino e
      else
        match t.step e "/" with
        | none => none
        | some p => t.lookupAux cs p.1 p.2
  | PathComp.normal s :: cs, _, e =>
      match t.step e s with
      | none => none
      | some p => t.lookupAux cs p.1 p.2

/-- Model of `INodeTable::lookup`: start the walk at the root entry. -/
def INodeTable.lookup {F : Type} (t : INodeTable F) (path : List PathComp) :
    Option (Nat × INodeEntry F) :=
  match t.get ROOT_INODE with
  | none => none
  | some e => t.lookupAux path ROOT_INODE e

/-- Model of `INodeTable::lookup_mut`: resolve with `lookup`, then re-fetch
the entry mutably by inode, exactly as the source does. -/
def INodeTable.lookup_mut {F : Type} (t : INodeTable F) (path : List PathComp) :
    Option (Nat × INodeEntry F) :=
  match (t.lookup path).map Prod.fst with
  | none => none
  | some ino =>
      match t.get_mut ino with
      | none => none
      | some e => some (ino, e)

/-- Modelled from the spec: the error taxonomy (§7). The variants
`NoEntry`, `NotFile`, `NotDirectory`, `NotImplemented` and the four
corresponding arms of `to_libc_error` are taken directly from
src/src/error.rs; the `InvalidFlags` variant (carrying the offending raw
flag word, as in `FSError::InvalidFlags(op.flags() as u32)` at
src/src/runner.rs line 158) is referenced by the runner but its definition
is missing from the error.rs snapshot, so it and its EINVAL mapping are
modelled from the spec's "invalid-flags → EINVAL". -/
inductive FSError where
  | NoEntry
  | NotFile
  | NotDirectory
  | NotImplemented
  | InvalidFlags (flags : Nat)
deriving DecidableEq, Repr

/-- Platform error number `ENOENT` (Linux). -/
def ENOENT : Int := 2

/-- Platform error number `ENOTDIR` (Linux). -/
def ENOTDIR : Int := 20

/-- Platform error number `EINVAL` (Linux). -/
def EINVAL : Int := 22

/-- Platform error number `ENOSYS` (Linux). -/
def ENOSYS : Int := 38

/-- Model of `FSError::to_libc_error` (src/src/error.rs lines 44-51); the
`InvalidFlags` arm is modelled from the spec as described on `FSError`. -/
def FSError.to_libc_error : FSError → Int
  | .NoEntry => ENOENT
  | .NotFile => EINVAL
  | .NotDirectory => ENOTDIR
  | .NotImplemented => ENOSYS
  | .InvalidFlags _ => EINVAL

/-- Modelled from the spec: `SetXAttrFlags` and its decoder, whose
definition is missing from the src snapshot (only its caller
`Runner::handle_setxattr` is present). Per §4.3 and §9, exactly one of the
create (`XATTR_CREATE` = 1) / replace (`XATTR_REPLACE` = 2) bits must be
set; both or neither decodes to nothing (an invalid-flags condition). -/
inductive SetXAttrFlags where
  | create
  | replace
deriving DecidableEq, Repr

/-- Modelled from the spec: `SetXAttrFlags::from_libc_type`, see
`SetXAttrFlags`. -/
def SetXAttrFlags.from_libc_type (flags : Int) : Option SetXAttrFlags :=
  if flags = 1 then some SetXAttrFlags.create
  else if flags = 2 then some SetXAttrFlags.replace
  else none

/-- The flag-decode boundary of `Runner::handle_setxattr`
(src/src/runner.rs lines 153-183): if the raw flag word does not decode,
the runner replies `libc::EINVAL` without invoking the backend; otherwise
the backend's error (if any) is translated with `to_libc_error`. Returns
the errno sent, or `none` when a success reply is sent. -/
def setxattr_reply_errno (flags : Int) (backend : Except FSError Unit) : Option Int :=
  match SetXAttrFlags.from_libc_type flags with
  | none => some EINVAL
  | some _ =>
      match backend with
      | .ok _ => none
      | .error e => some e.to_libc_error

/-- Decidable equality for `Except` results, needed to evaluate the
embedded operations on concrete inputs. -/
instance {E A : Type} [DecidableEq E] [DecidableEq A] : DecidableEq (Except E A)
  | Except.ok a, Except.ok b =>
      if h : a = b then isTrue (by rw [h]) else isFalse (by intro hc; cases hc; exact h rfl)
  | Except.error a, Except.error b =>
      if h : a = b then isTrue (by rw [h]) else isFalse (by intro hc; cases hc; exact h rfl)
  | Except.ok _, Except.error _ => isFalse (by intro hc; cases hc)
  | Except.error _, Except.ok _ => isFalse (by intro hc; cases hc)

/-- One directory entry handed back by readdir (src/src/lib.rs `DirEntry`). -/
structure DirEntry where
  name : String
  inode : Nat
  typ : FileType
  offset : Nat
deriving DecidableEq, Repr

/-- The example backend's file payload (src/examples/memfs.rs `File`):
raw bytes plus attributes. Bytes are modelled as `Nat` values. -/
structure File where
  data : List Nat
  attrs : FileAttributes
deriving DecidableEq, Repr

/-- Model of `File::new` (src/examples/memfs.rs): attributes built with
`size = data.len()` and `mode = S_IFREG | 0o755`. -/
def File.new (data : List Nat) : File :=
  { data := data,
    attrs := { FileAttributes.mkMode (S_IFREG + 493) with size := data.length } }

/-- Model of `File::size`: the `size` attribute as a `usize`. -/
def File.size (f : File) : Nat := f.attrs.size

/-- The child part of `MemFS::readdir` (src/examples/memfs.rs lines
129-147): each child of the directory becomes a `DirEntry` whose offset is
its enumeration index plus 3 (the source enumerates from 0 and adds 3 to
skip offset 0 and the two dot entries) and whose type tag is fetched with
`self.inodes.get(inode).unwrap().file_type()` — the `unwrap` panics when a
child inode is absent from the table, modelled by `none`. -/
def memfsChildEntries (t : INodeTable File) :
    List (String × Nat) → Nat → Option (List DirEntry)
  | [], _ => some []
  | (name, ino) :: rest, off =>
      match t.get ino with
      | none => none
      | some e =>
          match memfsChildEntries t rest (off + 1) with
          | none => none
          | some l => some (⟨name, ino, e.file_type, off⟩ :: l)

/-- Model of `MemFS::readdir` (src/examples/memfs.rs lines 108-148): the
synthesized "." (offset 1, the directory itself) and ".." (offset 2, the
parent, with the source's literal fallback `2u64.into()` when there is no
parent) entries, then the children with offsets from 3, with the first
`offset` entries skipped (`Iterator::skip`). `none` models the `unwrap`
panic on a dangling child inode; domain errors are `Except.error`. -/
def memfs_readdir (t : INodeTable File) (dir_ino : Nat) (offset : Nat) :
    Option (Except FSError (List DirEntry)) :=
  match t.get dir_ino with
  | none => some (Except.error FSError.NoEntry)
  | some dir_main =>
      match dir_main.as_dir with
      | none => some (Except.error FSError.NotDirectory)
      | some d =>
          let dots : List DirEntry :=
            [⟨".", dir_ino, FileType.Directory, 1⟩,
             ⟨"..", dir_main.parent.getD 2, FileType.Directory, 2⟩]
          match memfsChildEntries t d.children 3 with
          | none => none
          | some kids => some (Except.ok ((dots ++ kids).drop offset))

/-- Model of `MemFS::read` (src/examples/memfs.rs lines 150-161). The
source takes the byte suffix from `offset` (`data.get(offset..)`, empty
when out of range thanks to `unwrap_or(&[])`) and then slices it to
`min(file.size(), size)` bytes — a slice operation that panics (modelled
by `none`) whenever that length exceeds the suffix's length. -/
def memfs_read (t : INodeTable File) (ino : Nat) (offset size : Nat) :
    Option (Except FSError (List Nat)) :=
  match t.get ino with
  | none => some (Except.error FSError.NoEntry)
  | some e =>
      match e.as_file with
      | none => some (Except.error FSError.NotFile)
      | some f =>
          let content := if offset ≤ f.data.length then f.data.drop offset else []
          let k := min f.size size
          if k ≤ content.length then some (Except.ok (content.take k)) else none

/-- How the transport stream ends: end-of-stream (`next_request()` returns
`Ok(None)`) or a transport-level read error (`Err`). -/
inductive Terminator where
  | eos
  | terr
deriving DecidableEq, Repr

/-- The outcome of `Runner::run_block`: a normal `Ok(())` return, an `Err`
return (mount / transport / reply failure), or a panic. -/
inductive RunOutcome where
  | ok
  | err
  | panicked
deriving DecidableEq, Repr

/-- The request loop of `Runner::run_block` (src/src/runner.rs lines 78-105
and the equivalent src/src/lib.rs lines 342-362): each received request is
dispatched to exactly one handler, which threads the filesystem state and
returns `none` when the iteration must abort with `Err` (a decode or reply
I/O failure propagated by `?`); when `next_request` signals end-of-stream
the `while let` loop ends and the source executes `todo!()`, a panic. -/
def run_loop {σ ρ : Type} (dispatch : σ → ρ → Option σ) :
    σ → List ρ → Terminator → RunOutcome
  | _, [], Terminator.eos => RunOutcome.panicked
  | _, [], Terminator.terr => RunOutcome.err
  | s, r :: rs, t =>
      match dispatch s r with
      | none => RunOutcome.err
      | some s' => run_loop dispatch s' rs t

/-- Model of `Runner::run_block`: mount the session (an `Err` return when
mounting fails), then run the request loop until the transport ends. -/
def run_block {σ ρ : Type} (mountOk : Bool) (dispatch : σ → ρ → Option σ)
    (fs : σ) (reqs : List ρ) (term : Terminator) : RunOutcome :=
  if mountOk then run_loop dispatch fs reqs term else RunOutcome.err

theorem apply_attrs_untouched (a : FileAttributes) (u : SetFileAttributes) :
    (a.apply_attrs u).nlink = a.nlink ∧ (a.apply_attrs u).rdev = a.rdev ∧
    (a.apply_attrs u).blksize = a.blksize ∧ (a.apply_attrs u).blocks = a.blocks ∧
    (a.apply_attrs u).ttl = a.ttl := by
  obtain ⟨m, s, uu, g, ta, mt, ct⟩ := u
  refine ⟨?_, ?_, ?_, ?_, ?_⟩ <;>
    cases m <;> cases s <;> cases uu <;> cases g <;> cases ta <;> cases mt <;>
      cases ct <;> rfl

/-- C5: `apply_attrs` overwrites exactly the fields of the receiver for
which the update holds `Some`, leaves every `None` field (and every field
with no update counterpart) untouched and returns the resulting full
attribute set; applying the all-`None` update is a no-op and applying the
same update twice equals applying it once. -/
theorem apply_attrs_merge (a : FileAttributes) (u : SetFileAttributes) :
    a.apply_attrs u =
      { a with
        mode := u.mode.getD a.mode, size := u.size.getD a.size,
        uid := u.uid.getD a.uid, gid := u.gid.getD a.gid,
        atime := u.atime.getD a.atime, mtime := u.mtime.getD a.mtime,
        ctime := u.ctime.getD a.ctime } ∧
    a.apply_attrs SetFileAttributes.none_ = a ∧
    (a.apply_attrs u).apply_attrs u = a.apply_attrs u := by
  obtain ⟨m, s, uu, g, ta, mt, ct⟩ := u
  refine ⟨?_, ?_, ?_⟩ <;>
    cases m <;> cases s <;> cases uu <;> cases g <;> cases ta <;> cases mt <;>
      cases ct <;> rfl

/-- C8 counterexample: were every `FileAttributes` field (in particular
`nlink`) covered by an optional `SetFileAttributes` field that
`apply_attrs` copies, some update would change `nlink`; no update can. -/
theorem no_update_reaches_nlink :
    ¬ ∃ u : SetFileAttributes,
        ((FileAttributes.mkMode 0).apply_attrs u).nlink = 5 := by
  rintro ⟨u, h⟩
  rw [(apply_attrs_untouched (FileAttributes.mkMode 0) u).1] at h
  simp [FileAttributes.mkMode] at h

/-- C8 (amended): `SetFileAttributes` carries optional variants of only
seven of the `FileAttributes` fields — mode, size, uid, gid, atime, mtime
and ctime — each of which `apply_attrs` copies when it is `Some`; the
remaining fields (nlink, rdev, blksize, blocks, ttl) have no update
counterpart and are never changed by `apply_attrs`. -/
theorem set_attrs_field_coverage (a : FileAttributes)
    (m s uu g ta mt ct : Nat) :
    (∃ u : SetFileAttributes,
        a.apply_attrs u =
          { a with
            mode := m, size := s, uid := uu, gid := g,
            atime := ta, mtime := mt, ctime := ct }) ∧
    ∀ u : SetFileAttributes,
      (a.apply_attrs u).nlink = a.nlink ∧ (a.apply_attrs u).rdev = a.rdev ∧
      (a.apply_attrs u).blksize = a.blksize ∧
      (a.apply_attrs u).blocks = a.blocks ∧ (a.apply_attrs u).ttl = a.ttl :=
  ⟨⟨⟨some m, some s, some uu, some g, some ta, some mt, some ct⟩, rfl⟩,
   fun u => apply_attrs_untouched a u⟩

/-- C9: the error taxonomy consists exactly of `NoEntry`, `NotFile`,
`NotDirectory`, `NotImplemented` and `InvalidFlags`, and the boundary
translation maps no-such-entry to ENOENT, not-a-file to EINVAL,
not-a-directory to ENOTDIR, not-implemented to ENOSYS and invalid-flags to
EINVAL (both for the `InvalidFlags` error value and for the runner's
direct EINVAL reply when the setxattr flag word — 0 for neither bit, 3
for both bits — fails to decode). -/
theorem error_taxonomy_and_codes :
    (∀ e : FSError,
        e = FSError.NoEntry ∨ e = FSError.NotFile ∨ e = FSError.NotDirectory ∨
        e = FSError.NotImplemented ∨ ∃ f, e = FSError.InvalidFlags f) ∧
    FSError.to_libc_error FSError.NoEntry = ENOENT ∧
    FSError.to_libc_error FSError.NotFile = EINVAL ∧
    FSError.to_libc_error FSError.NotDirectory = ENOTDIR ∧
    FSError.to_libc_error FSError.NotImplemented = ENOSYS ∧
    (∀ f, FSError.to_libc_error (FSError.InvalidFlags f) = EINVAL) ∧
    setxattr_reply_errno 0 (Except.ok ()) = some EINVAL ∧
    setxattr_reply_errno 3 (Except.ok ()) = some EINVAL := by
  refine ⟨?_, rfl, rfl, rfl, rfl, fun f => rfl, by decide, by decide⟩
  intro e
  cases e <;> simp

theorem run_loop_eos_ne_ok {σ ρ : Type} (dispatch : σ → ρ → Option σ) :
    ∀ (reqs : List ρ) (s : σ),
      run_loop dispatch s reqs Terminator.eos ≠ RunOutcome.ok := by
  intro reqs
  induction reqs with
  | nil => intro s h; simp [run_loop] at h
  | cons r rs ih =>
      intro s h
      rw [run_loop] at h
      cases hd : dispatch s r with
      | none => rw [hd] at h; simp at h
      | some s' => rw [hd] at h; exact ih s' h

theorem run_loop_eos_all_ok_panics {σ ρ : Type} (d : σ → ρ → σ) :
    ∀ (reqs : List ρ) (s : σ),
      run_loop (fun a b => some (d a b)) s reqs Terminator.eos =
        RunOutcome.panicked := by
  intro reqs
  induction reqs with
  | nil => intro s; rfl
  | cons r rs ih => intro s; rw [run_loop]; exact ih (d s r)

/-- C1 (code bug): when the transport yields finitely many requests and
then signals end-of-stream, `run_block` never returns its `Ok` terminal
result — if every dispatched request is handled without a transport-level
error the loop falls out of `while let` into `todo!()` and panics. -/
theorem run_block_eos_panics {σ ρ : Type} (dispatch : σ → ρ → Option σ)
    (d : σ → ρ → σ) (fs : σ) (reqs : List ρ) :
    run_block true dispatch fs reqs Terminator.eos ≠ RunOutcome.ok ∧
    run_block true (fun a b => some (d a b)) fs reqs Terminator.eos =
      RunOutcome.panicked :=
  ⟨run_loop_eos_ne_ok dispatch reqs fs, run_loop_eos_all_ok_panics d reqs fs⟩

/-- The concrete memory filesystem of the example's `main`: the default
table plus the 12-byte file "hello_world!" pushed under the root (it
receives inode 2). -/
def memfsExample : INodeTable File :=
  ((INodeTable.default_ (F := File)).push_entry ROOT_INODE "file"
    (Payload.file (File.new [104, 101, 108, 108, 111, 95, 119, 111, 114, 108, 100, 33]))).1

/-- C3 (code bug): on a 12-byte in-table file, `read` succeeds only from
offset 0; at any positive offset — in particular at or past end-of-data —
the slice `&content[..min(file.size(), size)]` overruns the suffix taken
from `offset` and panics (`none`) instead of returning an empty or
truncated slice. -/
theorem memfs_read_out_of_bounds_panics :
    memfs_read memfsExample 2 0 4096 =
      some (Except.ok [104, 101, 108, 108, 111, 95, 119, 111, 114, 108, 100, 33]) ∧
    memfs_read memfsExample 2 0 5 =
      some (Except.ok [104, 101, 108, 108, 111]) ∧
    memfs_read memfsExample 2 12 4096 = none ∧
    memfs_read memfsExample 2 13 4096 = none ∧
    memfs_read memfsExample 2 5 4096 = none := by
  refine ⟨?_, ?_, ?_, ?_, ?_⟩ <;> decide

/-- C2 counterexample: on the root directory (which has no parent) the
synthesized ".." entry of `readdir` names inode 2 — the literal fallback
`2u64.into()` in the source — and not the root inode. -/
theorem readdir_root_dotdot_not_root :
    memfs_readdir (INodeTable.default_ (F := File)) ROOT_INODE 0 =
      some (Except.ok
        [⟨".", ROOT_INODE, FileType.Directory, 1⟩,
         ⟨"..", 2, FileType.Directory, 2⟩]) ∧
    (2 : Nat) ≠ ROOT_INODE := by
  refine ⟨by decide, by decide⟩

theorem step_eq_some {F : Type} (t : INodeTable F) (e : INodeEntry F) (s : String)
    (ino2 : Nat) (e2 : INodeEntry F) :
    t.step e s = some (ino2, e2) ↔
      ∃ d, e.as_dir = some d ∧ assocFind d.children s = some ino2 ∧
        t.get ino2 = some e2 := by
  constructor
  · intro h
    simp only [INodeTable.step, Option.bind_eq_some, Option.map_eq_some'] at h
    obtain ⟨d, hd, j, hf, e', hg, hpe⟩ := h
    obtain ⟨h1, h2⟩ := Prod.mk.injEq .. ▸ hpe
    subst h1
    subst h2
    exact ⟨d, hd, hf, hg⟩
  · rintro ⟨d, hd, hf, hg⟩
    rw [INodeTable.step, hd]
    simp [hf, hg]

theorem childrenL_of_as_dir {F : Type} {e : INodeEntry F} {d : Directory}
    (h : e.as_dir = some d) : e.childrenL = d.children := by
  obtain ⟨p, k⟩ := e
  cases k with
  | directory d' =>
      simp [INodeEntry.as_dir] at h
      simp [INodeEntry.childrenL, h]
  | file f => simp [INodeEntry.as_dir] at h

theorem lookupAux_mono {F : Type} (t : INodeTable F)
    (hwf : ∀ pr ∈ t.map, ∀ ch ∈ pr.2.childrenL, pr.1 < ch.2) :
    ∀ (cs : List PathComp) (ino : Nat) (e : INodeEntry F) (fi : Nat)
      (fe : INodeEntry F), t.get ino = some e →
      t.lookupAux cs ino e = some (fi, fe) → ino ≤ fi := by
  intro cs
  induction cs with
  | nil =>
      intro ino e fi fe _ hl
      rw [INodeTable.lookupAux] at hl
      simp at hl
      exact hl.1.le
  | cons c cs ih =>
      intro ino e fi fe hg hl
      have hstep : ∀ (s : String) (p : Nat × INodeEntry F), t.step e s = some p →
          t.lookupAux cs p.1 p.2 = some (fi, fe) → ino ≤ fi := by
        rintro s ⟨i2, e2⟩ hs hrec
        obtain ⟨d, hd, hf, hg2⟩ := (step_eq_some t e s i2 e2).mp hs
        have hch : (s, i2) ∈ e.childrenL := by
          rw [childrenL_of_as_dir hd]
          exact assocFind_mem hf
        have hlt : ino < i2 := hwf (ino, e) (assocFind_mem hg) (s, i2) hch
        exact le_of_lt (lt_of_lt_of_le hlt (ih i2 e2 fi fe hg2 hrec))
      cases c with
      | rootDir =>
          by_cases h1 : ino = ROOT_INODE
          · rw [INodeTable.lookupAux, if_pos h1] at hl
            exact ih ino e fi fe hg hl
          · rw [INodeTable.lookupAux, if_neg h1] at hl
            cases hs : t.step e "/" with
            | none => rw [hs] at hl; cases hl
            | some p => rw [hs] at hl; exact hstep "/" p hs hl
      | normal s =>
          rw [INodeTable.lookupAux] at hl
          cases hs : t.step e s with
          | none => rw [hs] at hl; cases hl
          | some p => rw [hs] at hl; exact hstep s p hs hl

theorem lookupAux_get {F : Type} (t : INodeTable F) :
    ∀ (cs : List PathComp) (ino : Nat) (e : INodeEntry F) (fi : Nat)
      (fe : INodeEntry F), t.get ino = some e →
      t.lookupAux cs ino e = some (fi, fe) → t.get fi = some fe := by
  intro cs
  induction cs with
  | nil =>
      intro ino e fi fe hg hl
      rw [INodeTable.lookupAux] at hl
      simp at hl
      rw [← hl.1, ← hl.2]
      exact hg
  | cons c cs ih =>
      intro ino e fi fe hg hl
      have hstep : ∀ (s : String) (p : Nat × INodeEntry F), t.step e s = some p →
          t.lookupAux cs p.1 p.2 = some (fi, fe) → t.get fi = some fe := by
        rintro s ⟨i2, e2⟩ hs hrec
        obtain ⟨d, hd, hf, hg2⟩ := (step_eq_some t e s i2 e2).mp hs
        exact ih i2 e2 fi fe hg2 hrec
      cases c with
      | rootDir =>
          by_cases h1 : ino = ROOT_INODE
          · rw [INodeTable.lookupAux, if_pos h1] at hl
            exact ih ino e fi fe hg hl
          · rw [INodeTable.lookupAux, if_neg h1] at hl
            cases hs : t.step e "/" with
            | none => rw [hs] at hl; cases hl
            | some p => rw [hs] at hl; exact hstep "/" p hs hl
      | normal s =>
          rw [INodeTable.lookupAux] at hl
          cases hs : t.step e s with
          | none => rw [hs] at hl; cases hl
          | some p => rw [hs] at hl; exact hstep s p hs hl

theorem lookupAux_append {F : Type} (t : INodeTable F) :
    ∀ (cs cs' : List PathComp) (ino : Nat) (e : INodeEntry F),
      t.lookupAux (cs ++ cs') ino e =
        match t.lookupAux cs ino e with
        | none => none
        | some p => t.lookupAux cs' p.1 p.2 := by
  intro cs
  induction cs with
  | nil =>
      intro cs' ino e
      rw [List.nil_append, INodeTable.lookupAux]
  | cons c cs ih =>
      intro cs' ino e
      cases c with
      | rootDir =>
          by_cases h1 : ino = ROOT_INODE
          · rw [List.cons_append, INodeTable.lookupAux, if_pos h1,
              INodeTable.lookupAux, if_pos h1]
            exact ih cs' ino e
          · rw [List.cons_append, INodeTable.lookupAux, if_neg h1,
              INodeTable.lookupAux, if_neg h1]
            cases hs : t.step e "/" with
            | none => rfl
            | some p => exact ih cs' p.1 p.2
      | normal s =>
          rw [List.cons_append, INodeTable.lookupAux, INodeTable.lookupAux]
          cases hs : t.step e s with
          | none => rfl
          | some p => exact ih cs' p.1 p.2

/-- The structural invariant of `INodeTable` values built through the
public API (the fields of the table, its entries and `Directory` are
private, so callers can only obtain `Default::default()` followed by
`push_entry` calls): every stored inode is below the allocation counter,
and every child edge points to a strictly larger inode. -/
def INodeTable.WF {F : Type} (t : INodeTable F) : Prop :=
  (∀ pr ∈ t.map, pr.1 < t.cur_ino) ∧
  (∀ pr ∈ t.map, ∀ ch ∈ pr.2.childrenL, pr.1 < ch.2)

instance {F : Type} (t : INodeTable F) : Decidable t.WF := by
  unfold INodeTable.WF
  infer_instance

theorem get_cur_ino_none {F : Type} (t : INodeTable F)
    (h : ∀ pr ∈ t.map, pr.1 < t.cur_ino) : t.get t.cur_ino = none := by
  cases hg : t.get t.cur_ino with
  | none => rfl
  | some e => exact absurd (h (t.cur_ino, e) (assocFind_mem hg)) (lt_irrefl _)

theorem push_entry_success {F : Type} (t : INodeTable F) (parent : Nat)
    (name : String) (pl : Payload F) (t' : INodeTable F) (i : Nat)
    (h : t.push_entry parent name pl = (t', some i)) :
    i = t.cur_ino ∧
    ∃ pe d, t.get parent = some pe ∧ pe.kind = INodeKind.directory d ∧
      t'.cur_ino = INode.next_inode t.cur_ino ∧
      t'.map = assocInsert
        (assocInsert t.map parent
          ⟨pe.parent, INodeKind.directory ⟨assocInsert d.children name t.cur_ino, d.attrs⟩⟩)
        t.cur_ino (pl.with_parent parent) := by
  simp only [INodeTable.push_entry, INodeTable.next_open_inode] at h
  split at h
  · exact absurd (congrArg Prod.snd h) (by simp)
  · rename_i pe hf
    split at h
    · exact absurd (congrArg Prod.snd h) (by simp)
    · rename_i d hk
      obtain ⟨h1, h2⟩ := Prod.mk.injEq .. ▸ h
      obtain ⟨hi⟩ := h2
      refine ⟨rfl, pe, d, ?_, hk, ?_, ?_⟩
      · exact hf
      · rw [← h1]
      · rw [← h1]

theorem lookupAux_pres {F : Type} (t t' : INodeTable F)
    (parent i : Nat) (pe pe' newE : INodeEntry F)
    (hwf2 : ∀ pr ∈ t.map, ∀ ch ∈ pr.2.childrenL, pr.1 < ch.2)
    (hpe : t.get parent = some pe)
    (hi : t.get i = none)
    (hget' : ∀ x, t'.get x =
      if x = i then some newE else if x = parent then some pe' else t.get x) :
    ∀ (cs : List PathComp) (ino : Nat) (e : INodeEntry F),
      t.get ino = some e →
      t.lookupAux cs ino e = some (parent, pe) →
      t'.lookupAux cs ino (if ino = parent then pe' else e) = some (parent, pe') := by
  intro cs
  induction cs with
  | nil =>
      intro ino e hg hl
      rw [INodeTable.lookupAux] at hl
      simp at hl
      obtain ⟨h1, h2⟩ := hl
      subst h1
      rw [if_pos rfl, INodeTable.lookupAux]
  | cons c cs ih =>
      intro ino e hg hl
      have hstep : ∀ (s : String) (i2 : Nat) (e2 : INodeEntry F),
          ino ≠ parent →
          t.step e s = some (i2, e2) →
          t.lookupAux cs i2 e2 = some (parent, pe) →
          t'.step e s = some (i2, if i2 = parent then pe' else e2) := by
        intro s i2 e2 hne hs _
        obtain ⟨d, hd, hf, hg2⟩ := (step_eq_some t e s i2 e2).mp hs
        refine (step_eq_some t' e s i2 _).mpr ⟨d, hd, hf, ?_⟩
        have hi2 : i2 ≠ i := by
          intro hc
          rw [hc, hi] at hg2
          cases hg2
        rw [hget' i2, if_neg hi2]
        by_cases hp2 : i2 = parent
        · rw [if_pos hp2, if_pos hp2]
        · rw [if_neg hp2, if_neg hp2]
          exact hg2
      have hmid : ∀ (s : String) (i2 : Nat) (e2 : INodeEntry F),
          t.step e s = some (i2, e2) →
          t.lookupAux cs i2 e2 = some (parent, pe) →
          ino ≠ parent := by
        intro s i2 e2 hs hrec hc
        subst hc
        obtain ⟨d, hd, hf, hg2⟩ := (step_eq_some t e s i2 e2).mp hs
        have heq : e = pe := by
          rw [hg] at hpe
          cases hpe
          rfl
        have hch : (s, i2) ∈ e.childrenL := by
          rw [childrenL_of_as_dir hd]
          exact assocFind_mem hf
        have hlt : ino < i2 := hwf2 (ino, e) (assocFind_mem hg) (s, i2) hch
        have hle : i2 ≤ ino := lookupAux_mono t hwf2 cs i2 e2 ino pe hg2 hrec
        exact absurd hlt (not_lt.mpr hle)
      cases c with
      | rootDir =>
          by_cases h1 : ino = ROOT_INODE
          · rw [INodeTable.lookupAux, if_pos h1] at hl
            rw [INodeTable.lookupAux, if_pos h1]
            exact ih ino e hg hl
          · rw [INodeTable.lookupAux, if_neg h1] at hl
            cases hs : t.step e "/" with
            | none => rw [hs] at hl; cases hl
            | some p =>
                obtain ⟨i2, e2⟩ := p
                rw [hs] at hl
                have hne := hmid "/" i2 e2 hs hl
                have hg2 := ((step_eq_some t e "/" i2 e2).mp hs).choose_spec.2.2
                rw [INodeTable.lookupAux, if_neg h1, if_neg hne,
                  hstep "/" i2 e2 hne hs hl]
                exact ih i2 e2 hg2 hl
      | normal s =>
          rw [INodeTable.lookupAux] at hl
          cases hs : t.step e s with
          | none => rw [hs] at hl; cases hl
          | some p =>
              obtain ⟨i2, e2⟩ := p
              rw [hs] at hl
              have hne := hmid s i2 e2 hs hl
              have hg2 := ((step_eq_some t e s i2 e2).mp hs).choose_spec.2.2
              rw [INodeTable.lookupAux, if_neg hne, hstep s i2 e2 hne hs hl]
              exact ih i2 e2 hg2 hl

/-- C4: on any well-formed table, pushing `name` under a parent that
resolves by path `path` to an existing directory and getting back inode `i`
means that `lookup` on `path` extended by the single component `name`
returns `i` with the just-inserted entry, `get` and `get_mut` both return
that entry, and its parent back-reference records the parent. -/
theorem push_entry_lookup_get {F : Type} (t : INodeTable F) (path : List PathComp)
    (parent : Nat) (pe : INodeEntry F) (name : String) (pl : Payload F)
    (t' : INodeTable F) (i : Nat)
    (hwf : t.WF)
    (hlook : t.lookup path = some (parent, pe))
    (hpush : t.push_entry parent name pl = (t', some i)) :
    t'.lookup (path ++ [PathComp.normal name]) = some (i, pl.with_parent parent) ∧
    t'.get i = some (pl.with_parent parent) ∧
    t'.get_mut i = some (pl.with_parent parent) ∧
    (pl.with_parent parent).parent = some parent := by
  obtain ⟨hwf1, hwf2⟩ := hwf
  obtain ⟨hieq, pe0, d0, hpe0, hk0, hcur', hmap'⟩ :=
    push_entry_success t parent name pl t' i hpush
  subst hieq
  rw [INodeTable.lookup] at hlook
  cases hroot : t.get ROOT_INODE with
  | none => rw [hroot] at hlook; cases hlook
  | some rootE =>
      rw [hroot] at hlook
      have hpe : t.get parent = some pe :=
        lookupAux_get t path ROOT_INODE rootE parent pe hroot hlook
      have hpe0eq : pe = pe0 := by
        rw [hpe] at hpe0
        cases hpe0
        rfl
      subst hpe0eq
      have hkpe : pe.kind = INodeKind.directory d0 := hk0
      have hi : t.get t.cur_ino = none := get_cur_ino_none t hwf1
      have hpar_lt : parent < t.cur_ino := hwf1 (parent, pe) (assocFind_mem hpe)
      have hroot_lt : ROOT_INODE < t.cur_ino := hwf1 (ROOT_INODE, rootE) (assocFind_mem hroot)
      set pe' : INodeEntry F :=
        ⟨pe.parent, INodeKind.directory ⟨assocInsert d0.children name t.cur_ino, d0.attrs⟩⟩
        with hpe'
      set newE : INodeEntry F := pl.with_parent parent with hnewE
      have hget' : ∀ x, t'.get x =
          if x = t.cur_ino then some newE
          else if x = parent then some pe' else t.get x := by
        intro x
        rw [INodeTable.get, hmap']
        by_cases hx : x = t.cur_ino
        · subst hx
          rw [if_pos rfl]
          exact assocFind_insert_self ..
        · rw [if_neg hx, assocFind_insert_ne _ _ _ _ hx]
          by_cases hxp : x = parent
          · subst hxp
            rw [if_pos rfl]
            exact assocFind_insert_self ..
          · rw [if_neg hxp, assocFind_insert_ne _ _ _ _ hxp]
            rfl
      have hgi : t'.get t.cur_ino = some newE := by
        rw [hget' t.cur_ino, if_pos rfl]
      refine ⟨?_, hgi, hgi, by cases pl <;> rfl⟩
      have hrootne : ROOT_INODE ≠ t.cur_ino := Nat.ne_of_lt hroot_lt
      have hparne : parent ≠ t.cur_ino := Nat.ne_of_lt hpar_lt
      have hpres := lookupAux_pres t t' parent t.cur_ino pe pe' newE hwf2 hpe hi hget'
        path ROOT_INODE rootE hroot hlook
      have hstep' : t'.step pe' name = some (t.cur_ino, newE) := by
        refine (step_eq_some t' pe' name t.cur_ino newE).mpr
          ⟨⟨assocInsert d0.children name t.cur_ino, d0.attrs⟩, ?_, ?_, hgi⟩
        · rw [hpe', INodeEntry.as_dir]
        · exact assocFind_insert_self ..
      have hrootget : t'.get ROOT_INODE =
          some (if ROOT_INODE = parent then pe' else rootE) := by
        rw [hget' ROOT_INODE, if_neg hrootne]
        by_cases hrp : ROOT_INODE = parent
        · rw [if_pos hrp, if_pos hrp]
        · rw [if_neg hrp, if_neg hrp, hroot]
      rw [INodeTable.lookup, hrootget]
      show t'.lookupAux (path ++ [PathComp.normal name]) ROOT_INODE
          (if ROOT_INODE = parent then pe' else rootE) = some (t.cur_ino, newE)
      rw [lookupAux_append t' path [PathComp.normal name] ROOT_INODE _, hpres]
      show t'.lookupAux [PathComp.normal name] parent pe' = some (t.cur_ino, newE)
      rw [INodeTable.lookupAux, hstep']
      show t'.lookupAux [] t.cur_ino newE = some (t.cur_ino, newE)
      rw [INodeTable.lookupAux]

theorem push_entry_lookup_get_witness :
    (INodeTable.default_ (F := Unit)).WF ∧
    (INodeTable.default_ (F := Unit)).lookup [] =
      some (ROOT_INODE, ⟨none, INodeKind.directory Directory.default_⟩) ∧
    (INodeTable.default_ (F := Unit)).push_entry ROOT_INODE "a" (Payload.file ()) =
      (((INodeTable.default_ (F := Unit)).push_entry ROOT_INODE "a" (Payload.file ())).1,
        some 2) ∧
    ((INodeTable.default_ (F := Unit)).push_entry ROOT_INODE "a" (Payload.file ())).1.lookup
        ([] ++ [PathComp.normal "a"]) =
      some (2, (Payload.file ()).with_parent ROOT_INODE) :=
  ⟨by decide, by decide, by decide,
    (push_entry_lookup_get (INodeTable.default_ (F := Unit)) [] ROOT_INODE
      ⟨none, INodeKind.directory Directory.default_⟩ "a" (Payload.file ())
      ((INodeTable.default_ (F := Unit)).push_entry ROOT_INODE "a" (Payload.file ())).1 2
      (by decide) (by decide) (by decide)).1⟩

theorem push_entry_fail_shape {F : Type} (t : INodeTable F) (parent : Nat)
    (name : String) (pl : Payload F) (t' : INodeTable F)
    (h : t.push_entry parent name pl = (t', none)) :
    t'.map = t.map ∧ t'.cur_ino = INode.next_inode t.cur_ino := by
  simp only [INodeTable.push_entry, INodeTable.next_open_inode] at h
  split at h
  · obtain ⟨h1, _⟩ := Prod.mk.injEq .. ▸ h
    rw [← h1]
    exact ⟨rfl, rfl⟩
  · rename_i pe _
    split at h
    · obtain ⟨h1, _⟩ := Prod.mk.injEq .. ▸ h
      rw [← h1]
      exact ⟨rfl, rfl⟩
    · exact absurd (congrArg Prod.snd h) (by simp)

/-- C10: a failing `push_entry` (absent or non-directory parent) leaves the
inode-to-entry map — and with it every directory's children — exactly
unchanged, yet still advances the allocation counter by one; hence when the
previous successful push returned `prev` (so the counter stood at
`prev + 1`), the next successful push returns `prev + 2`, which exceeds
`prev` by more than one. -/
theorem push_entry_fail_frame (F : Type) (t : INodeTable F) (parent : Nat)
    (name : String) (pl : Payload F) (t' : INodeTable F) (prev : Nat)
    (hprev : t.cur_ino = prev + 1) (hnw : prev + 2 < 2 ^ 64)
    (hfail : t.push_entry parent name pl = (t', none)) :
    t'.map = t.map ∧ t'.cur_ino = t.cur_ino + 1 ∧
    ∀ (p2 : Nat) (n2 : String) (e2 : Payload F) (t'' : INodeTable F) (i : Nat),
      t'.push_entry p2 n2 e2 = (t'', some i) → i = prev + 2 ∧ prev + 1 < i := by
  obtain ⟨hmap, hcur⟩ := push_entry_fail_shape t parent name pl t' hfail
  have hcur' : t'.cur_ino = t.cur_ino + 1 := by
    rw [hcur, INode.next_inode, hprev]
    exact Nat.mod_eq_of_lt (by omega)
  refine ⟨hmap, hcur', ?_⟩
  intro p2 n2 e2 t'' i hsucc
  have hieq := (push_entry_success t' p2 n2 e2 t'' i hsucc).1
  rw [hieq, hcur', hprev]
  omega

theorem push_entry_fail_frame_witness :
    (INodeTable.default_ (F := Unit)).cur_ino = 1 + 1 ∧
    (1 : Nat) + 2 < 2 ^ 64 ∧
    (INodeTable.default_ (F := Unit)).push_entry 77 "z" (Payload.file ()) =
      (((INodeTable.default_ (F := Unit)).push_entry 77 "z" (Payload.file ())).1, none) ∧
    ((3 : Nat) = 1 + 2 ∧ (1 : Nat) + 1 < 3) :=
  ⟨by decide, by decide, by decide,
    (push_entry_fail_frame Unit (INodeTable.default_ (F := Unit)) 77 "z" (Payload.file ())
      ((INodeTable.default_ (F := Unit)).push_entry 77 "z" (Payload.file ())).1 1
      (by decide) (by decide) (by decide)).2.2 ROOT_INODE "b" (Payload.file ())
      ((((INodeTable.default_ (F := Unit)).push_entry 77 "z" (Payload.file ())).1).push_entry
        ROOT_INODE "b" (Payload.file ())).1 3 (by decide)⟩

/-- One `push_entry` call: the arguments of `INodeTable::push_entry`. -/
structure PushOp (F : Type) where
  parent : Nat
  name : String
  payload : Payload F
deriving DecidableEq

/-- A whole lifetime of `push_entry` calls on one table: run them in order,
collecting the inodes returned by the successful ones (in call order). -/
def runPushes {F : Type} (t : INodeTable F) : List (PushOp F) → INodeTable F × List Nat
  | [] => (t, [])
  | op :: ops =>
      let r := t.push_entry op.parent op.name op.payload
      let rest := runPushes r.1 ops
      (rest.1, match r.2 with | some i => i :: rest.2 | none => rest.2)

theorem push_entry_cur_advance {F : Type} (t : INodeTable F) (p : Nat) (n : String)
    (e : Payload F) :
    (t.push_entry p n e).1.cur_ino = INode.next_inode t.cur_ino ∧
    ∀ i, (t.push_entry p n e).2 = some i → i = t.cur_ino := by
  cases hr : t.push_entry p n e with
  | mk t' r =>
      cases r with
      | none =>
          obtain ⟨_, hcur⟩ := push_entry_fail_shape t p n e t' hr
          exact ⟨hcur, by intro i hi; cases hi⟩
      | some i =>
          obtain ⟨hi, _, _, _, _, hcur, _⟩ := push_entry_success t p n e t' i hr
          refine ⟨hcur, ?_⟩
          intro j hj
          cases hj
          exact hi

theorem runPushes_bounds {F : Type} :
    ∀ (ops : List (PushOp F)) (t : INodeTable F),
      t.cur_ino + ops.length ≤ 2 ^ 64 →
      (∀ x ∈ (runPushes t ops).2, t.cur_ino ≤ x ∧ x < t.cur_ino + ops.length) ∧
      List.Pairwise (· < ·) (runPushes t ops).2 := by
  intro ops
  induction ops with
  | nil =>
      intro t _
      constructor
      · intro x hx
        rw [runPushes] at hx
        cases hx
      · rw [runPushes]
        exact List.Pairwise.nil
  | cons op ops ih =>
      intro t h
      obtain ⟨hcur, hval⟩ := push_entry_cur_advance t op.parent op.name op.payload
      rw [List.length_cons] at h
      cases hr : t.push_entry op.parent op.name op.payload with
      | mk t1 r =>
          rw [hr] at hcur hval
          simp only [runPushes, hr, List.length_cons]
          by_cases hbig : t.cur_ino + 1 < 2 ^ 64
          · have hc1 : t1.cur_ino = t.cur_ino + 1 := by
              rw [hcur, INode.next_inode]
              exact Nat.mod_eq_of_lt hbig
            obtain ⟨hbd, hpw⟩ := ih t1 (by rw [hc1]; omega)
            rw [hc1] at hbd
            cases r with
            | none =>
                constructor
                · intro x hx
                  obtain ⟨h1, h2⟩ := hbd x hx
                  omega
                · exact hpw
            | some i =>
                have hieq : i = t.cur_ino := hval i rfl
                subst hieq
                constructor
                · intro x hx
                  cases hx with
                  | head => omega
                  | tail _ hx2 =>
                      obtain ⟨h1, h2⟩ := hbd x hx2
                      omega
                · refine List.Pairwise.cons ?_ hpw
                  intro x hx
                  exact lt_of_lt_of_le (Nat.lt_succ_self _) (hbd x hx).1
          · have hlen : ops.length = 0 := by omega
            have hops : ops = [] := List.length_eq_zero.mp hlen
            subst hops
            cases r with
            | none =>
                constructor
                · intro x hx
                  rw [runPushes] at hx
                  cases hx
                · rw [runPushes]
                  exact List.Pairwise.nil
            | some i =>
                have hieq : i = t.cur_ino := hval i rfl
                subst hieq
                constructor
                · intro x hx
                  rw [runPushes] at hx
                  cases hx with
                  | head => omega
                  | tail _ hx2 => cases hx2
                · rw [runPushes]
                  exact List.Pairwise.cons (by intro x hx; cases hx) List.Pairwise.nil

/-- C6 (amended): over any lifetime of at most `2^64 - 2` push_entry calls
on one table (so that the `u64` allocation counter cannot wrap), every
inode returned by a successful push is strictly greater than the root
inode and than every inode returned by an earlier push — allocated numbers
are pairwise distinct and never reused. -/
theorem push_entry_monotonic (F : Type) (ops : List (PushOp F))
    (h : ops.length ≤ 2 ^ 64 - 2) :
    List.Pairwise (· < ·) (runPushes (INodeTable.default_ (F := F)) ops).2 ∧
    ∀ x ∈ (runPushes (INodeTable.default_ (F := F)) ops).2, ROOT_INODE < x := by
  have hcur : (INodeTable.default_ (F := F)).cur_ino = 2 := by
    show INode.next_inode ROOT_INODE = 2
    rw [INode.next_inode, ROOT_INODE]
    exact Nat.mod_eq_of_lt (by omega)
  have hb := runPushes_bounds ops (INodeTable.default_ (F := F)) (by rw [hcur]; omega)
  refine ⟨hb.2, ?_⟩
  intro x hx
  have hlow := (hb.1 x hx).1
  rw [hcur] at hlow
  rw [ROOT_INODE]
  omega

theorem push_entry_monotonic_witness :
    ([⟨ROOT_INODE, "a", Payload.file ()⟩, ⟨ROOT_INODE, "b", Payload.file ()⟩] :
        List (PushOp Unit)).length ≤ 2 ^ 64 - 2 ∧
    List.Pairwise (· < ·)
      (runPushes (INodeTable.default_ (F := Unit))
        [⟨ROOT_INODE, "a", Payload.file ()⟩, ⟨ROOT_INODE, "b", Payload.file ()⟩]).2 :=
  ⟨by decide,
    (push_entry_monotonic Unit
      [⟨ROOT_INODE, "a", Payload.file ()⟩, ⟨ROOT_INODE, "b", Payload.file ()⟩]
      (by decide)).1⟩

/-- A directory entry is present at the root inode. -/
def rootIsDir {F : Type} (t : INodeTable F) : Prop :=
  ∃ p d, t.get ROOT_INODE = some ⟨p, INodeKind.directory d⟩

theorem push_entry_to_root {F : Type} (t : INodeTable F) (n : String) (f : F)
    (p : Option Nat) (d : Directory)
    (hg : t.get ROOT_INODE = some ⟨p, INodeKind.directory d⟩)
    (hne : t.cur_ino ≠ ROOT_INODE) :
    (t.push_entry ROOT_INODE n (Payload.file f)).2 = some t.cur_ino ∧
    rootIsDir (t.push_entry ROOT_INODE n (Payload.file f)).1 := by
  have hmain : t.push_entry ROOT_INODE n (Payload.file f) =
      ({ map := assocInsert
            (assocInsert t.map ROOT_INODE
              ⟨p, INodeKind.directory ⟨assocInsert d.children n t.cur_ino, d.attrs⟩⟩)
            t.cur_ino ⟨some ROOT_INODE, INodeKind.file f⟩,
          cur_ino := INode.next_inode t.cur_ino }, some t.cur_ino) := by
    have hg' : assocFind t.map ROOT_INODE = some ⟨p, INodeKind.directory d⟩ := hg
    simp only [INodeTable.push_entry, INodeTable.next_open_inode, hg']
    rfl
  refine ⟨by rw [hmain], ?_⟩
  rw [hmain]
  refine ⟨p, ⟨assocInsert d.children n t.cur_ino, d.attrs⟩, ?_⟩
  show assocFind _ ROOT_INODE = _
  rw [assocFind_insert_ne _ _ _ _ (Ne.symm hne), assocFind_insert_self]

/-- The push operation used to exhaust the allocation counter: a file
pushed under the root with a fixed name. -/
def pushRootOp {F : Type} (f : F) : PushOp F := ⟨ROOT_INODE, "a", Payload.file f⟩

theorem runPushes_replicate {F : Type} (f : F) :
    ∀ (n : Nat) (t : INodeTable F),
      rootIsDir t →
      t.cur_ino < 2 ^ 64 →
      (∀ k, k < n → (t.cur_ino + k) % 2 ^ 64 ≠ ROOT_INODE) →
      (runPushes t (List.replicate n (pushRootOp f))).2 =
        (List.range n).map (fun k => (t.cur_ino + k) % 2 ^ 64) := by
  intro n
  induction n with
  | zero =>
      intro t _ _ _
      rw [List.replicate_zero, List.range_zero, List.map_nil, runPushes]
  | succ m ih =>
      intro t hroot hlt hne
      have hne0 : t.cur_ino ≠ ROOT_INODE := by
        have h0 := hne 0 (Nat.succ_pos m)
        rwa [Nat.add_zero, Nat.mod_eq_of_lt hlt] at h0
      obtain ⟨p, d, hg⟩ := hroot
      obtain ⟨hr2, hroot1⟩ := push_entry_to_root t "a" f p d hg hne0
      have hcur1 : (t.push_entry ROOT_INODE "a" (Payload.file f)).1.cur_ino =
          (t.cur_ino + 1) % 2 ^ 64 := by
        rw [(push_entry_cur_advance t ROOT_INODE "a" (Payload.file f)).1, INode.next_inode]
      rw [List.replicate_succ]
      simp only [runPushes, pushRootOp]
      rw [hr2]
      show t.cur_ino :: (runPushes (t.push_entry ROOT_INODE "a" (Payload.file f)).1
          (List.replicate m (pushRootOp f))).2 =
        List.map (fun k => (t.cur_ino + k) % 2 ^ 64) (List.range (m + 1))
      have hih := ih (t.push_entry ROOT_INODE "a" (Payload.file f)).1 hroot1
        (by rw [hcur1]; exact Nat.mod_lt _ (by omega))
        (by
          intro k hk
          rw [hcur1, Nat.mod_add_mod]
          have := hne (k + 1) (by omega)
          rw [show t.cur_ino + 1 + k = t.cur_ino + (k + 1) by omega]
          exact this)
      rw [hih, hcur1]
      rw [List.range_succ_eq_map, List.map_cons, List.map_map]
      congr 1
      · rw [Nat.add_zero]
        exact (Nat.mod_eq_of_lt hlt).symm
      refine List.map_congr_left ?_
      intro k _
      show ((t.cur_ino + 1) % 2 ^ 64 + k) % 2 ^ 64 = (t.cur_ino + Nat.succ k) % 2 ^ 64
      rw [Nat.mod_add_mod]
      refine congrArg (· % 2 ^ 64) ?_
      omega

/-- C6 counterexample: after exactly `2^64 - 1` pushes under the root of a
fresh table the `u64` counter wraps, and the last successful push returns
inode 0 — not greater than the root inode (nor than any earlier one). -/
theorem push_entry_wraps :
    0 ∈ (runPushes (INodeTable.default_ (F := Unit))
        (List.replicate (2 ^ 64 - 1) (pushRootOp ()))).2 ∧
    ¬ ∀ x ∈ (runPushes (INodeTable.default_ (F := Unit))
        (List.replicate (2 ^ 64 - 1) (pushRootOp ()))).2, ROOT_INODE < x := by
  have hc : (INodeTable.default_ (F := Unit)).cur_ino = 2 := by
    show INode.next_inode ROOT_INODE = 2
    rw [INode.next_inode, ROOT_INODE]
    exact Nat.mod_eq_of_lt (by omega)
  have hrun := runPushes_replicate () (2 ^ 64 - 1) (INodeTable.default_ (F := Unit))
    ⟨none, Directory.default_, by decide⟩ (by rw [hc]; omega)
    (by intro k hk; rw [hc, ROOT_INODE]; omega)
  rw [hc] at hrun
  have hmem : 0 ∈ (runPushes (INodeTable.default_ (F := Unit))
      (List.replicate (2 ^ 64 - 1) (pushRootOp ()))).2 := by
    rw [hrun]
    refine List.mem_map.mpr ⟨2 ^ 64 - 2, List.mem_range.mpr (by omega), by omega⟩
  refine ⟨hmem, fun hall => ?_⟩
  have h0 := hall 0 hmem
  rw [ROOT_INODE] at h0
  omega

theorem memfsChildEntries_spec (t : INodeTable File) :
    ∀ (l : List (String × Nat)) (off : Nat),
      (∀ pr ∈ l, (t.get pr.2).isSome) →
      ∃ kids, memfsChildEntries t l off = some kids ∧
        kids.map DirEntry.name = l.map Prod.fst ∧
        kids.map DirEntry.inode = l.map Prod.snd ∧
        kids.map DirEntry.offset = List.range' off l.length := by
  intro l
  induction l with
  | nil =>
      intro off _
      exact ⟨[], rfl, rfl, rfl, rfl⟩
  | cons hd tl ih =>
      intro off h
      obtain ⟨name, ino⟩ := hd
      have h0 : (t.get ino).isSome := h (name, ino) (List.mem_cons_self _ _)
      obtain ⟨e, he⟩ := Option.isSome_iff_exists.mp h0
      obtain ⟨kids, hk, hn, hi, ho⟩ :=
        ih (off + 1) (fun pr hpr => h pr (List.mem_cons_of_mem _ hpr))
      refine ⟨⟨name, ino, e.file_type, off⟩ :: kids, ?_, ?_, ?_, ?_⟩
      · rw [memfsChildEntries, he, hk]
      · rw [List.map_cons, hn, List.map_cons]
      · rw [List.map_cons, hi, List.map_cons]
      · rw [List.map_cons, ho, List.length_cons, List.range'_succ]

theorem memfs_readdir_eq (t : INodeTable File) (ino off : Nat)
    (e : INodeEntry File) (d : Directory) (kids : List DirEntry)
    (hget : t.get ino = some e) (hdir : e.as_dir = some d)
    (hce : memfsChildEntries t d.children 3 = some kids) :
    memfs_readdir t ino off =
      some (Except.ok
        ((([⟨".", ino, FileType.Directory, 1⟩,
            ⟨"..", e.parent.getD 2, FileType.Directory, 2⟩] : List DirEntry) ++
          kids).drop off)) := by
  simp only [memfs_readdir, hget, hdir, hce]

/-- C2 (amended): for every in-table directory inode whose children all
resolve, `readdir` from cursor 0 yields first "." (offset 1, the directory
itself), then ".." (offset 2, the parent — or the hardcoded fallback inode
2, not the root inode, when the directory has no parent), and only then
the real children, in enumeration order, with consecutive offsets starting
at 3. -/
theorem readdir_dots_then_children (t : INodeTable File) (ino : Nat)
    (e : INodeEntry File) (d : Directory)
    (hget : t.get ino = some e) (hdir : e.as_dir = some d)
    (hch : ∀ pr ∈ d.children, (t.get pr.2).isSome) :
    ∃ kids : List DirEntry,
      memfs_readdir t ino 0 =
        some (Except.ok
          (⟨".", ino, FileType.Directory, 1⟩ ::
            ⟨"..", e.parent.getD 2, FileType.Directory, 2⟩ :: kids)) ∧
      kids.map DirEntry.name = d.children.map Prod.fst ∧
      kids.map DirEntry.inode = d.children.map Prod.snd ∧
      kids.map DirEntry.offset = List.range' 3 d.children.length := by
  obtain ⟨kids, hk, hn, hi, ho⟩ := memfsChildEntries_spec t d.children 3 hch
  refine ⟨kids, ?_, hn, hi, ho⟩
  rw [memfs_readdir_eq t ino 0 e d kids hget hdir hk, List.drop_zero]
  rfl

theorem readdir_dots_then_children_witness :
    (INodeTable.default_ (F := File)).get ROOT_INODE =
      some ⟨none, INodeKind.directory Directory.default_⟩ ∧
    (⟨none, INodeKind.directory Directory.default_⟩ : INodeEntry File).as_dir =
      some Directory.default_ ∧
    memfs_readdir (INodeTable.default_ (F := File)) ROOT_INODE 0 =
      some (Except.ok
        [⟨".", ROOT_INODE, FileType.Directory, 1⟩,
         ⟨"..", 2, FileType.Directory, 2⟩]) := by
  refine ⟨by decide, by decide, ?_⟩
  obtain ⟨kids, hk, hn, _, _⟩ := readdir_dots_then_children
    (INodeTable.default_ (F := File)) ROOT_INODE
    ⟨none, INodeKind.directory Directory.default_⟩ Directory.default_
    (by decide) (by decide) (by intro pr hpr; cases hpr)
  have hkids : kids = [] := List.map_eq_nil_iff.mp (by rw [hn]; rfl)
  rw [hkids] at hk
  exact hk

/-- C7: for a directory at inode 1 holding exactly the two children
`(n1, c1)` and `(n2, c2)` (both resolving in the table), readdir from
cursor 0 yields ".", "..", then the two children with strictly increasing
offsets 1, 2, 3, 4, and readdir from cursor 3 skips the three entries
before the cursor and yields exactly the remaining child (offset 4). -/
theorem readdir_two_children_cursor (t : INodeTable File)
    (e e1 e2 : INodeEntry File) (d : Directory)
    (n1 n2 : String) (c1 c2 : Nat)
    (hget : t.get 1 = some e) (hdir : e.as_dir = some d)
    (hch : d.children = [(n1, c1), (n2, c2)])
    (h1 : t.get c1 = some e1) (h2 : t.get c2 = some e2) :
    memfs_readdir t 1 0 =
      some (Except.ok
        [⟨".", 1, FileType.Directory, 1⟩,
         ⟨"..", e.parent.getD 2, FileType.Directory, 2⟩,
         ⟨n1, c1, e1.file_type, 3⟩, ⟨n2, c2, e2.file_type, 4⟩]) ∧
    memfs_readdir t 1 3 =
      some (Except.ok [⟨n2, c2, e2.file_type, 4⟩]) := by
  have hce : memfsChildEntries t d.children 3 =
      some [⟨n1, c1, e1.file_type, 3⟩, ⟨n2, c2, e2.file_type, 4⟩] := by
    rw [hch]
    simp [memfsChildEntries, h1, h2]
  constructor
  · rw [memfs_readdir_eq t 1 0 e d _ hget hdir hce, List.drop_zero]
    rfl
  · rw [memfs_readdir_eq t 1 3 e d _ hget hdir hce]
    rfl

/-- A concrete table realizing the spec's readdir scenario: a root
directory with the two children `x -> 10` and `y -> 11`. -/
def twoChildTable : INodeTable File :=
  { map :=
      [(1, ⟨none, INodeKind.directory
          ⟨[("x", 10), ("y", 11)], FileAttributes.mkMode S_IFDIR⟩⟩),
       (10, ⟨some 1, INodeKind.directory ⟨[], FileAttributes.mkMode S_IFDIR⟩⟩),
       (11, ⟨some 1, INodeKind.file (File.new [])⟩)],
    cur_ino := 12 }

theorem readdir_two_children_cursor_witness :
    twoChildTable.get 1 =
      some ⟨none, INodeKind.directory
        ⟨[("x", 10), ("y", 11)], FileAttributes.mkMode S_IFDIR⟩⟩ ∧
    twoChildTable.get 10 =
      some ⟨some 1, INodeKind.directory ⟨[], FileAttributes.mkMode S_IFDIR⟩⟩ ∧
    twoChildTable.get 11 = some ⟨some 1, INodeKind.file (File.new [])⟩ ∧
    memfs_readdir twoChildTable 1 0 =
      some (Except.ok
        [⟨".", 1, FileType.Directory, 1⟩, ⟨"..", 2, FileType.Directory, 2⟩,
         ⟨"x", 10, FileType.Directory, 3⟩, ⟨"y", 11, FileType.Regular, 4⟩]) ∧
    memfs_readdir twoChildTable 1 3 =
      some (Except.ok [⟨"y", 11, FileType.Regular, 4⟩]) :=
  ⟨by decide, by decide, by decide,
    (readdir_two_children_cursor twoChildTable
      ⟨none, INodeKind.directory ⟨[("x", 10), ("y", 11)], FileAttributes.mkMode S_IFDIR⟩⟩
      ⟨some 1, INodeKind.directory ⟨[], FileAttributes.mkMode S_IFDIR⟩⟩
      ⟨some 1, INodeKind.file (File.new [])⟩
      ⟨[("x", 10), ("y", 11)], FileAttributes.mkMode S_IFDIR⟩
      "x" "y" 10 11 (by decide) (by decide) (by decide) (by decide) (by decide)).1,
    (readdir_two_children_cursor twoChildTable
      ⟨none, INodeKind.directory ⟨[("x", 10), ("y", 11)], FileAttributes.mkMode S_IFDIR⟩⟩
      ⟨some 1, INodeKind.directory ⟨[], FileAttributes.mkMode S_IFDIR⟩⟩
      ⟨some 1, INodeKind.file (File.new [])⟩
      ⟨[("x", 10), ("y", 11)], FileAttributes.mkMode S_IFDIR⟩
      "x" "y" 10 11 (by decide) (by decide) (by decide) (by decide) (by decide)).2⟩
